import Mathlib

/-!
Verification of the DOM component-discovery engine of a design-system audit
tool.  The source is JavaScript run inside a browser page: a shadow-piercing
traversal (`searchInShadowDOM`), a per-tag component extractor
(`extractEnhancedComponents`, `auditHorizonComponents`, `extractComponents`),
a reference-spec comparator (`validateComponentSpecs`) and a custom-pattern
scanner (`findCustomPatterns`).

Embedding conventions:
* JS strings are `List Char` (`Str`); string literals are written `str "..."`.
* The DOM is a value tree `Elt`: tag name, attribute list (name/value pairs
  in document order), an optional shadow root (a forest of elements, `none`
  when the element hosts no shadow root) and the light-DOM children.
  Tag names are stored in normalized lowercase form, so the source's
  `el.tagName.toLowerCase()` is the identity here.
* A document and a shadow root are both modeled as a forest `List Elt`.
* `root.querySelectorAll(tag)` is `qsaF` (descendants in document order, not
  crossing shadow boundaries); `root.querySelectorAll('*')` is `allDescF`
  (pre-order); `querySelector` of a disjunctive selector is `find?` over
  `allDescF` — first match in document order.
* JS truthiness of a string-or-null value is `truthyOptStr` (null and the
  empty string are falsy); `a || b` on such values is `jsOrStr`.
* Code that throws (a `querySelectorAll` on a null root, an invalid selector
  given to `page.$$eval`) is modeled with `Except`.
-/

set_option maxHeartbeats 1000000

/-- JS strings are modeled as lists of characters. -/
abbrev Str := List Char

/-- Shorthand turning a Lean string literal into the `Str` model. -/
def str (s : String) : Str := s.toList

/-- Splits at every whitespace character (the source splits with the regex
pattern for one-or-more whitespace, which differs from this only by empty
tokens between consecutive whitespace characters; the dash filter applied
downstream discards empty tokens, so every consumer below is unaffected). -/
def splitWsAux : Str → List Str
  | [] => [[]]
  | c :: cs =>
    match splitWsAux cs with
    | [] => [[]]
    | t :: ts => if c.isWhitespace then [] :: t :: ts else (c :: t) :: ts

/-- JS `className.split` on whitespace. -/
def splitWs (s : Str) : List Str := splitWsAux s

/-- Spec-side notion: the (nonempty) whitespace-separated tokens of a
class-like attribute string. -/
def wsTokens (s : Str) : List Str := (splitWs s).filter (fun t => t ≠ [])

/-- JS `c.startsWith` applied to the dash marker. -/
def startsWithDash : Str → Bool
  | c :: _ => c = '-'
  | [] => false

/-- The fixed variant vocabulary of the extractor (`variantPatterns` in the
source, identical in `parseComponentClasses`, `parseClasses` and the
validator's `getClassVariants`). -/
def variantPatterns : List Str :=
  [str "primary", str "secondary", str "tertiary", str "destructive",
   str "ghost", str "default", str "error", str "warning", str "info",
   str "success", str "bare", str "iconic", str "filled", str "outlined",
   str "text"]

/-- The fixed size vocabulary of the extractor (`sizePatterns` in
`parseComponentClasses` and `parseClasses`). -/
def sizePatterns : List Str :=
  [str "xs", str "sm", str "md", str "lg", str "xl", str "2xl"]

/-- The size vocabulary of the validator (`sizePatterns` in
`validateComponentSpecs`, which additionally recognizes `full`). -/
def sizePatternsValidator : List Str :=
  [str "xs", str "sm", str "md", str "lg", str "xl", str "2xl", str "full"]

/-- Result of class-token derivation. -/
structure ParsedClasses where
  variants : List Str
  sizes : List Str
deriving DecidableEq

/-- The extractor's `parseClasses` (inside `extractEnhancedComponents`):
split the class string on whitespace, keep dash-prefixed tokens whose
remainder is in the fixed vocabulary; an absent/empty class string or an
empty filter result yields the `default` sentinel. -/
def parseClasses (className : Str) : ParsedClasses :=
  if className = [] then ⟨[str "default"], [str "default"]⟩
  else
    let classes := splitWs className
    let variants :=
      ((classes.filter startsWithDash).map (fun c => c.drop 1)).filter
        (fun c => c ∈ variantPatterns)
    let sizes :=
      ((classes.filter startsWithDash).map (fun c => c.drop 1)).filter
        (fun c => c ∈ sizePatterns)
    ⟨if variants.length > 0 then variants else [str "default"],
     if sizes.length > 0 then sizes else [str "default"]⟩

/-- The module-level `parseComponentClasses` of the same file: identical
token logic, but the absent-class early return yields empty lists instead of
the sentinel.  It is defined in the source yet never invoked. -/
def parseComponentClasses (className : Str) : ParsedClasses :=
  if className = [] then ⟨[], []⟩
  else
    let classes := splitWs className
    let variants :=
      ((classes.filter startsWithDash).map (fun c => c.drop 1)).filter
        (fun c => c ∈ variantPatterns)
    let sizes :=
      ((classes.filter startsWithDash).map (fun c => c.drop 1)).filter
        (fun c => c ∈ sizePatterns)
    ⟨if variants.length > 0 then variants else [str "default"],
     if sizes.length > 0 then sizes else [str "default"]⟩

/-- The shared token pipeline of `parseClasses`: dash-prefixed
whitespace-separated tokens with the marker removed, filtered against a
vocabulary. -/
def derivedTokens (vocab : List Str) (s : Str) : List Str :=
  (((splitWs s).filter startsWithDash).map (fun c => c.drop 1)).filter
    (fun c => c ∈ vocab)

/-- A DOM element: tag name, attributes, optional shadow root (a forest;
`none` when `el.shadowRoot` is null), light-DOM children. -/
inductive Elt : Type where
  | mk : Str → List (Str × Str) → Option (List Elt) → List Elt → Elt

/-- Tag name of an element. -/
def Elt.tag : Elt → Str
  | .mk t _ _ _ => t

/-- Attribute list of an element. -/
def Elt.attrs : Elt → List (Str × Str)
  | .mk _ a _ _ => a

/-- Shadow root of an element (`none` models a null `shadowRoot`). -/
def Elt.shadow : Elt → Option (List Elt)
  | .mk _ _ sh _ => sh

/-- Light-DOM children of an element. -/
def Elt.children : Elt → List Elt
  | .mk _ _ _ ch => ch

mutual
/-- Matches of a tag-name query within one element's subtree (the element
itself included), document order, not crossing shadow boundaries. -/
def qsaE (tag : Str) : Elt → List Elt
  | .mk t a sh ch => (if t = tag then [Elt.mk t a sh ch] else []) ++ qsaF tag ch
/-- Model of `root.querySelectorAll(tag)` for a forest root: every element with the
given tag in the open tree below the root, in document order. -/
def qsaF (tag : Str) : List Elt → List Elt
  | [] => []
  | e :: es => qsaE tag e ++ qsaF tag es
end

mutual
/-- Pre-order enumeration of an element and its open-tree descendants. -/
def allDescE : Elt → List Elt
  | .mk t a sh ch => Elt.mk t a sh ch :: allDescF ch
/-- Model of `root.querySelectorAll(asterisk)` for a forest root: every open-tree
descendant element in document (pre-)order, not entering shadow roots. -/
def allDescF : List Elt → List Elt
  | [] => []
  | e :: es => allDescE e ++ allDescF es
end

mutual
/-- Spec-side measure: the number of elements with the given tag anywhere in
the element's descendant tree, where a shadow root counts as a descendant
tree of its host.  Each tree position is counted exactly once. -/
def countMatchesE (tag : Str) : Elt → Nat
  | .mk t _ sh ch =>
    (if t = tag then 1 else 0) +
    (match sh with | some sr => countMatchesF tag sr | none => 0) +
    countMatchesF tag ch
/-- Spec-side measure over a forest (a document or a shadow root). -/
def countMatchesF (tag : Str) : List Elt → Nat
  | [] => 0
  | e :: es => countMatchesE tag e + countMatchesF tag es
end

mutual
/-- Contribution of the shadow roots hosted below one element: for the
element itself (if it hosts a shadow root) the full search of that root,
then the contributions of its open-tree descendants, in document order. -/
def shadowContribE (tag : Str) : Elt → List Elt
  | .mk _ _ sh ch =>
    (match sh with
     | some sr => qsaF tag sr ++ shadowContribF tag sr
     | none => []) ++ shadowContribF tag ch
/-- Contribution of the shadow roots hosted below a forest. -/
def shadowContribF (tag : Str) : List Elt → List Elt
  | [] => []
  | e :: es => shadowContribE tag e ++ shadowContribF tag es
end

/-- The source's `searchInShadowDOM(root, componentName)`: matches in the
current root first (`querySelectorAll`), then, for every descendant hosting
a shadow root, in document order of the hosts, the recursive search of that
shadow root.  The source recursion passes through the host enumeration; the
structural phrasing here is proved to satisfy exactly the source's
recurrence by `shadowContribF_flatMap` below. -/
def searchInShadowDOM (root : List Elt) (tag : Str) : List Elt :=
  qsaF tag root ++ shadowContribF tag root

/-- JS `el.getAttribute(name)`: the value of the attribute, or null (`none`)
when absent. -/
def getAttr (e : Elt) (name : Str) : Option Str :=
  (e.attrs.find? (fun p => p.1 = name)).map (fun p => p.2)

/-- JS `el.hasAttribute(name)`. -/
def hasAttr (e : Elt) (name : Str) : Bool :=
  (e.attrs.find? (fun p => p.1 = name)).isSome

/-- JS `el.className`: the class attribute value, or the empty string when
the element has no class attribute. -/
def classNameOf (e : Elt) : Str := (getAttr e (str "class")).getD []

/-- JS truthiness of a string-or-null value: null and the empty string are
falsy. -/
def truthyOptStr : Option Str → Bool
  | none => false
  | some s => s ≠ []

/-- JS `a || b` for string-or-null values. -/
def jsOrStr (a b : Option Str) : Option Str := if truthyOptStr a then a else b

/-- Substring test (the CSS attribute selector with a star-equals match). -/
def hasSub (s pat : Str) : Bool := s.tails.any (fun t => pat.isPrefixOf t)

/-- JS `root.querySelector(sel)` for a disjunctive selector given as a
predicate: the first matching descendant in document order, if any. -/
def querySelectorFirst (f : List Elt) (p : Elt → Bool) : Option Elt :=
  (allDescF f).find? p

/-- Per-tag record built by `auditHorizonComponents` (the `details` sample
of the first element is omitted: no claim concerns it). -/
structure AuditEntry where
  count : Nat
  countInMain : Nat
  countInShadow : Nat
deriving DecidableEq

/-- One tracked tag of `auditHorizonComponents`: `elementsInMain` from the
open-tree query, `elementsInShadow` from `searchInShadowDOM(document, ...)`,
concatenated into `allElements`; a record is produced only when the
concatenation is nonempty. -/
def auditEntry (doc : List Elt) (name : Str) : Option AuditEntry :=
  let elementsInMain := qsaF name doc
  let elementsInShadow := searchInShadowDOM doc name
  let allElements := elementsInMain ++ elementsInShadow
  if allElements.length > 0 then
    some ⟨allElements.length, elementsInMain.length, elementsInShadow.length⟩
  else none

/-- The in-page loop of `auditHorizonComponents` over the tracked tag list;
the JS result object keyed in insertion order is an association list. -/
def auditHorizonComponents (doc : List Elt) (tracked : List Str) :
    List (Str × AuditEntry) :=
  tracked.filterMap (fun name => (auditEntry doc name).map (fun r => (name, r)))

/-- The extractor's selector for the "real control" inside a wrapper's
shadow root: `button, input, select, div[class*="now-"]`. -/
def actualElementSelector (e : Elt) : Bool :=
  e.tag = str "button" || e.tag = str "input" || e.tag = str "select" ||
  (e.tag = str "div" && hasSub (classNameOf e) (str "now-"))

/-- The extractor's `actualElement` indirection: when the element hosts a
shadow root whose first matching descendant exists, use it; otherwise the
element itself. -/
def actualElement (e : Elt) : Elt :=
  match e.shadow with
  | some sr =>
    match querySelectorFirst sr actualElementSelector with
    | some firstChild => firstChild
    | none => e
  | none => e

/-- One instance record built by `extractEnhancedComponents`. -/
structure InstanceRec where
  tagName : Str
  className : Str
  attributes : List (Str × Str)
  variants : List Str
  sizes : List Str
  hasIcon : Bool
  disabled : Bool
  ariaLabel : Option Str
deriving DecidableEq

/-- The per-element instance builder of `extractEnhancedComponents`. -/
def mkInstance (e : Elt) : InstanceRec :=
  let actual := actualElement e
  let cn := classNameOf actual
  let parsed := parseClasses cn
  { tagName := e.tag
    className := cn
    attributes := e.attrs
    variants := parsed.variants
    sizes := parsed.sizes
    hasIcon := hasAttr e (str "icon") || (getAttr e (str "icon")).isSome
    disabled := hasAttr e (str "disabled") || hasAttr actual (str "disabled")
    ariaLabel :=
      jsOrStr (getAttr e (str "aria-label")) (getAttr actual (str "aria-label")) }

/-- Deduplication in first-occurrence order (JS `new Set` iteration order). -/
def jsSetDedupAux (seen : List Str) : List Str → List Str
  | [] => []
  | x :: xs =>
    if x ∈ seen then jsSetDedupAux seen xs
    else x :: jsSetDedupAux (x :: seen) xs

/-- JS spread of a `Set` built from a list. -/
def jsSetDedup (l : List Str) : List Str := jsSetDedupAux [] l

/-- Number of occurrences of a token in a token list. -/
def countOcc (l : List Str) (x : Str) : Nat := (l.filter (fun y => y = x)).length

/-- The JS counting object (`variantCounts` / `sizeCounts`): keys in
first-occurrence order, each with its total count. -/
def distributionOf (tokens : List Str) : List (Str × Nat) :=
  (jsSetDedup tokens).map (fun t => (t, countOcc tokens t))

/-- Per-tag report of `extractEnhancedComponents`. -/
structure EnhancedReport where
  count : Nat
  countInMain : Nat
  countInShadow : Nat
  variants : List Str
  sizes : List Str
  variantDistribution : List (Str × Nat)
  sizeDistribution : List (Str × Nat)
  instances : List InstanceRec
  hasIcons : Nat
  hasDisabled : Nat
deriving DecidableEq

/-- One tracked tag of `extractEnhancedComponents`: same element collection
as the audit, plus instance records, token aggregation, distributions, a
five-element sample and flag tallies. -/
def enhancedEntry (doc : List Elt) (name : Str) : Option EnhancedReport :=
  let elementsInMain := qsaF name doc
  let elementsInShadow := searchInShadowDOM doc name
  let allElements := elementsInMain ++ elementsInShadow
  if allElements.length > 0 then
    let instances := allElements.map mkInstance
    some
      { count := allElements.length
        countInMain := elementsInMain.length
        countInShadow := elementsInShadow.length
        variants := jsSetDedup (instances.flatMap (fun i => i.variants))
        sizes := jsSetDedup (instances.flatMap (fun i => i.sizes))
        variantDistribution := distributionOf (instances.flatMap (fun i => i.variants))
        sizeDistribution := distributionOf (instances.flatMap (fun i => i.sizes))
        instances := instances.take 5
        hasIcons := (instances.filter (fun i => i.hasIcon)).length
        hasDisabled := (instances.filter (fun i => i.disabled)).length }
  else none

/-- The in-page loop of `extractEnhancedComponents` over the tracked list. -/
def extractEnhancedComponents (doc : List Elt) (tracked : List Str) :
    List (Str × EnhancedReport) :=
  tracked.filterMap (fun name => (enhancedEntry doc name).map (fun r => (name, r)))

/-- One instance record built by `extractComponents` in the Figma-comparison
script (the `parent` field, an upward pointer, is omitted: no claim concerns
it and the value tree carries no parent links). -/
structure FigmaInstance where
  tagName : Str
  attributes : List (Str × Str)
  variant : Str
  size : Str
  state : Str
  hasIcon : Bool
deriving DecidableEq

/-- JS `el.getAttribute(name) || defaultValue`. -/
def attrOrDefault (e : Elt) (name dflt : Str) : Str :=
  match jsOrStr (getAttr e name) (some dflt) with
  | some v => v
  | none => dflt

/-- The per-element instance builder of `extractComponents`
(compare-to-figma): note `hasIcon` uses JS truthiness of the attribute
value, unlike `mkInstance` which uses attribute presence. -/
def mkFigmaInstance (e : Elt) : FigmaInstance :=
  { tagName := e.tag
    attributes := e.attrs
    variant := attrOrDefault e (str "variant") (str "default")
    size := attrOrDefault e (str "size") (str "default")
    state := if (getAttr e (str "disabled")).isSome then str "disabled"
             else str "enabled"
    hasIcon := truthyOptStr (getAttr e (str "icon")) }

/-- The validator's selector for the styled shadow child:
`button, input, textarea, div[class]`. -/
def validatorTargetSelector (e : Elt) : Bool :=
  e.tag = str "button" || e.tag = str "input" || e.tag = str "textarea" ||
  (e.tag = str "div" && hasAttr e (str "class"))

/-- The validator's `getClassVariants`: class tokens of the element itself
or of its first styled shadow child, filtered against the vocabularies; this
version has no sentinel defaulting and recognizes the extra size `full`. -/
def getClassVariants (e : Elt) : ParsedClasses :=
  let target :=
    match e.shadow with
    | some sr =>
      match querySelectorFirst sr validatorTargetSelector with
      | some firstChild => firstChild
      | none => e
    | none => e
  let classes := splitWs (classNameOf target)
  ⟨((classes.filter startsWithDash).map (fun c => c.drop 1)).filter
      (fun c => c ∈ variantPatterns),
   ((classes.filter startsWithDash).map (fun c => c.drop 1)).filter
      (fun c => c ∈ sizePatternsValidator)⟩

/-- One entry of the external Figma component mapping, as consumed by
`validateComponentSpecs`: a node id (checked for JS truthiness before the
tag is validated), allowed variant and size token lists, and the eight
optional named attribute constraints, in the declared check order. -/
structure RefSpec where
  figmaComponentNodeId : Option Str
  variants : List Str
  sizes : List Str
  shadow : Option (List Str)
  sidebar : Option (List Str)
  actionType : Option (List Str)
  orientation : Option (List Str)
  label : Option (List Str)
  action : Option (List Str)
  primaryPosition : Option (List Str)
  secondaryPosition : Option (List Str)
deriving DecidableEq

/-- Structured rendering of the validator's issue messages.
`instanceLabel` is the 1-based instance number printed in the message;
the payload carries the offending token(s) and the allowed set quoted by
the message text. -/
inductive Issue : Type where
  | invalidVariants (instanceLabel : Nat) (found : List Str) (allowed : List Str)
  | invalidSizes (instanceLabel : Nat) (found : List Str) (allowed : List Str)
  | invalidAttr (instanceLabel : Nat) (attrName : Str) (value : Str)
      (allowed : List Str)
deriving DecidableEq

/-- One named attribute constraint check of `validateComponentSpecs`: only
performed when the spec declares the constraint; an absent attribute is
never a violation; a present value outside the allowed list is one. -/
def checkAttr (i : Nat) (attrName : Str) (allowed : Option (List Str))
    (val : Option Str) : List Issue :=
  match allowed with
  | none => []
  | some al =>
    match val with
    | some v => if v ∈ al then [] else [Issue.invalidAttr i attrName v al]
    | none => []

/-- The eight named attribute constraints of a `RefSpec`, paired with the
DOM attribute names they read, in the declared check order of the source. -/
def constraintsOf (spec : RefSpec) : List (Str × Option (List Str)) :=
  [(str "shadow", spec.shadow),
   (str "sidebar", spec.sidebar),
   (str "action-type", spec.actionType),
   (str "orientation", spec.orientation),
   (str "label", spec.label),
   (str "action", spec.action),
   (str "primary-position", spec.primaryPosition),
   (str "secondary-position", spec.secondaryPosition)]

/-- The attribute names of the eight constraints, in declared order. -/
def constraintNames : List Str :=
  [str "shadow", str "sidebar", str "action-type", str "orientation",
   str "label", str "action", str "primary-position", str "secondary-position"]

/-- The issues pushed for one element (instance label `i`): the variant
check, then the size check, then the eight attribute constraints in
declared order. -/
def elementIssues (spec : RefSpec) (i : Nat) (e : Elt) : List Issue :=
  let parsed := getClassVariants e
  let invalidVariants := parsed.variants.filter (fun v => v ∉ spec.variants)
  let invalidSizes := parsed.sizes.filter (fun s => s ∉ spec.sizes)
  (if invalidVariants.length > 0 then
    [Issue.invalidVariants i invalidVariants spec.variants] else []) ++
  (if invalidSizes.length > 0 then
    [Issue.invalidSizes i invalidSizes spec.sizes] else []) ++
  (constraintsOf spec).flatMap (fun c => checkAttr i c.1 c.2 (getAttr e c.1))

/-- The `elements.forEach((el, i) => ...)` loop; instance labels are
1-based. -/
def validateTagAux (spec : RefSpec) (i : Nat) : List Elt → List Issue
  | [] => []
  | e :: es => elementIssues spec i e ++ validateTagAux spec (i + 1) es

/-- All issues for one tag: the element list in traversal order, labels
starting at instance 1. -/
def validateTag (spec : RefSpec) (els : List Elt) : List Issue :=
  validateTagAux spec 1 els

/-- The guard `if (!spec || !spec.figmaComponentNodeId) continue`: a tag is
validated only when the mapping has an entry whose node id is truthy. -/
def specUsable : Option RefSpec → Bool
  | none => false
  | some sp => truthyOptStr sp.figmaComponentNodeId

/-- The validator `validateComponentSpecs`: for each audited tag name in order, skip it
silently when the mapping entry is absent or incomplete; otherwise collect
the issues of a fresh shadow-piercing search for that tag, recording only
nonempty issue lists. -/
def validateComponentSpecs (figma : Str → Option RefSpec) (doc : List Elt) :
    List Str → List (Str × List Issue)
  | [] => []
  | name :: rest =>
    match figma name with
    | none => validateComponentSpecs figma doc rest
    | some sp =>
      if truthyOptStr sp.figmaComponentNodeId then
        let issues := validateTag sp (searchInShadowDOM doc name)
        if issues.length > 0 then
          (name, issues) :: validateComponentSpecs figma doc rest
        else validateComponentSpecs figma doc rest
      else validateComponentSpecs figma doc rest

/-- Element index (instance label) of an issue. -/
def issueElem : Issue → Nat
  | .invalidVariants i _ _ => i
  | .invalidSizes i _ _ => i
  | .invalidAttr i _ _ _ => i

/-- Position of an attribute name in the declared constraint order. -/
def attrSlot (n : Str) : Nat :=
  if n = str "shadow" then 0
  else if n = str "sidebar" then 1
  else if n = str "action-type" then 2
  else if n = str "orientation" then 3
  else if n = str "label" then 4
  else if n = str "action" then 5
  else if n = str "primary-position" then 6
  else if n = str "secondary-position" then 7
  else 8

/-- Within-element priority of an issue: variants before sizes before the
attribute constraints in declared order. -/
def issueSub : Issue → Nat
  | .invalidVariants _ _ _ => 0
  | .invalidSizes _ _ _ => 1
  | .invalidAttr _ n _ _ => 2 + attrSlot n

/-- Combined emission rank of an issue (element index dominates; the eight
within-element priorities fit strictly below the next element). -/
def issueRank (x : Issue) : Nat := 10 * issueElem x + issueSub x

/-- A selector handed to `page.eval` over all matches: either a plain tag
selector, or a string the selector engine rejects (the evaluation then
throws, which the model returns as an error). -/
inductive Sel : Type where
  | tagSel (t : Str)
  | invalidSel (msg : Str)
deriving DecidableEq

/-- The per-selector query of `findCustomPatterns` (count of open-tree
matches), raising an error for a selector the engine rejects. -/
def querySelCount (doc : List Elt) : Sel → Except Str Nat
  | .tagSel t => .ok (qsaF t doc).length
  | .invalidSel m => .error m

/-- The scanner `findCustomPatterns`: each configured pattern is queried inside a
try/catch; a positive count is recorded, a zero count is skipped, and a
failing query is caught, logged and skipped — the error never escapes. -/
def findCustomPatterns (doc : List Elt) : List (Str × Sel) → List (Str × Nat)
  | [] => []
  | (n, s) :: rest =>
    match querySelCount doc s with
    | .ok c =>
      if c > 0 then (n, c) :: findCustomPatterns doc rest
      else findCustomPatterns doc rest
    | .error _ => findCustomPatterns doc rest

/-- The descriptive error a null root raises at the very first
`querySelectorAll` call of the traversal. -/
def nullRootMsg : Str := str "TypeError: cannot read querySelectorAll of null"

/-- The traversal as reached from a driver-supplied root that may be null:
a null root raises before any result is accumulated; a live root runs the
ordinary search.  No catch exists between the traversal and the caller. -/
def searchInShadowDOMFromRoot (root : Option (List Elt)) (tag : Str) :
    Except Str (List Elt) :=
  match root with
  | none => .error nullRootMsg
  | some r => .ok (searchInShadowDOM r tag)

/-- An empty reference mapping: no tag has a spec entry. -/
def emptyFigmaMapping : Str → Option RefSpec := fun _ => none

/-- A document whose whole tree holds exactly one matching element: a single
now-button in the open tree, no shadow roots. -/
def oneButtonDoc : List Elt := [Elt.mk (str "now-button") [] none []]

/-- A page body with no matching elements, for the custom-pattern scenarios. -/
def plainBodyDoc : List Elt := [Elt.mk (str "body") [] none []]

/-- An element carrying an icon attribute whose value is the empty string. -/
def emptyIconButton : Elt := Elt.mk (str "now-button") [(str "icon", [])] none []

/-- Demo document with three x-widget instances, at shadow-nesting depths
0 (open tree), 1, and 3. -/
def xwDemoDoc : List Elt :=
  [Elt.mk (str "x-widget") [] none [],
   Elt.mk (str "div") [] (some [Elt.mk (str "x-widget") [] none []]) [],
   Elt.mk (str "div") []
     (some [Elt.mk (str "div") []
       (some [Elt.mk (str "div") []
         (some [Elt.mk (str "x-widget") [] none []]) []]) []]) []]

/-- A two-host document: hosts A then B in document order, each hosting one
matching x-w element inside its shadow root. -/
def twoHostDoc : List Elt :=
  [Elt.mk (str "div") [(str "id", str "a")]
     (some [Elt.mk (str "x-w") [(str "id", str "wa")] none []]) [],
   Elt.mk (str "div") [(str "id", str "b")]
     (some [Elt.mk (str "x-w") [(str "id", str "wb")] none []]) []]

mutual
/-- The open matches plus the shadow contributions of one element account
for every matching tree position exactly once. -/
theorem qsaE_add_shadowContribE_length (tag : Str) (e : Elt) :
    (qsaE tag e).length + (shadowContribE tag e).length = countMatchesE tag e :=
  match e with
  | .mk t a sh ch => by
    have h1 := qsaF_add_shadowContribF_length tag ch
    cases sh with
    | none =>
      by_cases ht : t = tag <;>
        simp [qsaE, shadowContribE, countMatchesE, ht] <;> omega
    | some sr =>
      have h2 := qsaF_add_shadowContribF_length tag sr
      by_cases ht : t = tag <;>
        simp [qsaE, shadowContribE, countMatchesE, ht] <;> omega
/-- Forest version of `qsaE_add_shadowContribE_length`. -/
theorem qsaF_add_shadowContribF_length (tag : Str) (f : List Elt) :
    (qsaF tag f).length + (shadowContribF tag f).length = countMatchesF tag f :=
  match f with
  | [] => by simp [qsaF, shadowContribF, countMatchesF]
  | e :: es => by
    have h1 := qsaE_add_shadowContribE_length tag e
    have h2 := qsaF_add_shadowContribF_length tag es
    simp [qsaF, shadowContribF, countMatchesF]
    omega
end

mutual
/-- Every element returned by the subtree query carries the queried tag. -/
theorem mem_qsaE_tag (tag : Str) (e : Elt) : ∀ x ∈ qsaE tag e, x.tag = tag :=
  match e with
  | .mk t a sh ch => by
    intro x hx
    by_cases ht : t = tag
    · simp [qsaE, ht] at hx
      rcases hx with h | h
      · subst h; simp [Elt.tag, ht]
      · exact mem_qsaF_tag tag ch x h
    · simp [qsaE, ht] at hx
      exact mem_qsaF_tag tag ch x hx
/-- Forest version of `mem_qsaE_tag`. -/
theorem mem_qsaF_tag (tag : Str) (f : List Elt) : ∀ x ∈ qsaF tag f, x.tag = tag :=
  match f with
  | [] => by simp [qsaF]
  | e :: es => by
    intro x hx
    rcases List.mem_append.mp (by simpa [qsaF] using hx) with h | h
    · exact mem_qsaE_tag tag e x h
    · exact mem_qsaF_tag tag es x h
end

mutual
/-- Every element contributed by the shadow recursion carries the queried
tag. -/
theorem mem_shadowContribE_tag (tag : Str) (e : Elt) :
    ∀ x ∈ shadowContribE tag e, x.tag = tag :=
  match e with
  | .mk t a sh ch => by
    intro x hx
    cases sh with
    | none =>
      simp [shadowContribE] at hx
      exact mem_shadowContribF_tag tag ch x hx
    | some sr =>
      simp [shadowContribE] at hx
      rcases hx with h | h | h
      · exact mem_qsaF_tag tag sr x h
      · exact mem_shadowContribF_tag tag sr x h
      · exact mem_shadowContribF_tag tag ch x h
/-- Forest version of `mem_shadowContribE_tag`. -/
theorem mem_shadowContribF_tag (tag : Str) (f : List Elt) :
    ∀ x ∈ shadowContribF tag f, x.tag = tag :=
  match f with
  | [] => by simp [shadowContribF]
  | e :: es => by
    intro x hx
    rcases List.mem_append.mp (by simpa [shadowContribF] using hx) with h | h
    · exact mem_shadowContribE_tag tag e x h
    · exact mem_shadowContribF_tag tag es x h
end

mutual
/-- The shadow contribution of one element is the concatenation, over its
pre-order descendants that host a shadow root, of the full search of each
hosted root. -/
theorem shadowContribE_flatMap (tag : Str) (e : Elt) :
    shadowContribE tag e = (allDescE e).flatMap
      (fun x => match x.shadow with
        | some sr => searchInShadowDOM sr tag
        | none => []) :=
  match e with
  | .mk t a sh ch => by
    have h1 := shadowContribF_flatMap tag ch
    cases sh with
    | none => simp [shadowContribE, allDescE, Elt.shadow, h1]
    | some sr =>
      simp [shadowContribE, allDescE, Elt.shadow, h1, searchInShadowDOM]
/-- Forest version of `shadowContribE_flatMap`. -/
theorem shadowContribF_flatMap (tag : Str) (f : List Elt) :
    shadowContribF tag f = (allDescF f).flatMap
      (fun x => match x.shadow with
        | some sr => searchInShadowDOM sr tag
        | none => []) :=
  match f with
  | [] => by simp [shadowContribF, allDescF]
  | e :: es => by
    have h1 := shadowContribE_flatMap tag e
    have h2 := shadowContribF_flatMap tag es
    simp [shadowContribF, allDescF, h1, h2]
end

/-- C1: the claim states that every per-tag report satisfies
`count = countInOpen + countInEncapsulated` with `count` the number of
distinct matches in the whole tree and `countInEncapsulated` the size of
the difference set (all distinct matches minus open matches).  The code
instead concatenates the open-tree query result with the full
shadow-piercing search — which already contains every open match — and
never set-subtracts, so every open match is counted twice.  On a document
whose whole tree holds exactly one matching element (in the open tree, no
shadow roots at all), the audit reports `count = 2`, `countInMain = 1`,
`countInShadow = 1`, although the distinct total is 1 and the difference
set is empty; the enhanced extractor builds its report from the same
double-counted element list. -/
theorem audit_double_counts_open_matches :
    auditHorizonComponents oneButtonDoc [str "now-button"] =
      [(str "now-button", ⟨2, 1, 1⟩)] ∧
    countMatchesF (str "now-button") oneButtonDoc = 1 ∧
    (extractEnhancedComponents oneButtonDoc [str "now-button"]).map
        (fun p => (p.1, p.2.count, p.2.countInMain, p.2.countInShadow)) =
      [(str "now-button", 2, 1, 1)] :=
  ⟨rfl, rfl, rfl⟩

/-- C2: the shadow-piercing traversal returns every element with the
queried tag anywhere in the root's descendant tree — shadow roots included,
at any nesting depth — each matching tree position exactly once: its result
length equals the spec-side count of matching positions, every returned
element carries the queried tag, and on a document with three instances at
shadow depths 0, 1 and 3 it returns exactly three matches. -/
theorem searchInShadowDOM_complete :
    (∀ (root : List Elt) (tag : Str),
      (searchInShadowDOM root tag).length = countMatchesF tag root ∧
      ∀ x ∈ searchInShadowDOM root tag, x.tag = tag) ∧
    (searchInShadowDOM xwDemoDoc (str "x-widget")).length = 3 := by
  constructor
  · intro root tag
    constructor
    · have h := qsaF_add_shadowContribF_length tag root
      simpa [searchInShadowDOM] using h
    · intro x hx
      rcases List.mem_append.mp (by simpa [searchInShadowDOM] using hx) with h | h
      · exact mem_qsaF_tag tag root x h
      · exact mem_shadowContribF_tag tag root x h
  · rfl

/-- C3: ordering of the traversal output — matches found directly in the
current root (in document order, via the subtree query) precede every match
contributed by an encapsulated sub-root, and hosted sub-roots are searched
in document (pre-)order of their host elements; in particular, with two
hosts A before B each hosting one match, A's match is returned before
B's. -/
theorem searchInShadowDOM_ordering :
    (∀ (root : List Elt) (tag : Str),
      searchInShadowDOM root tag =
        qsaF tag root ++
          (allDescF root).flatMap (fun x =>
            match x.shadow with
            | some sr => searchInShadowDOM sr tag
            | none => [])) ∧
    searchInShadowDOM twoHostDoc (str "x-w") =
      [Elt.mk (str "x-w") [(str "id", str "wa")] none [],
       Elt.mk (str "x-w") [(str "id", str "wb")] none []] := by
  constructor
  · intro root tag
    rw [searchInShadowDOM, shadowContribF_flatMap]
  · rfl

/-- Membership in the dash-token pipeline: a remainder appears exactly when
the dash-marked token appears among the split tokens. -/
theorem mem_dashTokens (s x : Str) :
    x ∈ ((splitWs s).filter startsWithDash).map (fun c => c.drop 1) ↔
      ('-' :: x) ∈ splitWs s := by
  constructor
  · intro hx
    rcases List.mem_map.mp hx with ⟨t, ht, rfl⟩
    rcases List.mem_filter.mp ht with ⟨htm, htd⟩
    cases t with
    | nil => simp [startsWithDash] at htd
    | cons c cs =>
      simp [startsWithDash] at htd
      subst htd
      simpa using htm
  · intro h
    exact List.mem_map.mpr
      ⟨'-' :: x, List.mem_filter.mpr ⟨h, by simp [startsWithDash]⟩, by simp⟩

/-- A dash-marked token is a split token exactly when it is a
whitespace-separated token (dash tokens are never empty). -/
theorem dash_mem_wsTokens (s x : Str) :
    ('-' :: x) ∈ wsTokens s ↔ ('-' :: x) ∈ splitWs s := by
  simp [wsTokens, List.mem_filter]

/-- Characterization of the vocabulary-filtered token pipeline. -/
theorem mem_derivedTokens (vocab : List Str) (s x : Str) :
    x ∈ derivedTokens vocab s ↔
      x ∈ vocab ∧ ('-' :: x) ∈ wsTokens s := by
  rw [derivedTokens, List.mem_filter]
  rw [mem_dashTokens, dash_mem_wsTokens]
  simp [And.comm]

/-- The variants field of `parseClasses`, phrased through the pipeline. -/
theorem parseClasses_variants_eq (s : Str) :
    (parseClasses s).variants =
      if derivedTokens variantPatterns s = [] then [str "default"]
      else derivedTokens variantPatterns s := by
  by_cases hs : s = []
  · subst hs; rfl
  · unfold parseClasses
    rw [if_neg hs]
    show (if (derivedTokens variantPatterns s).length > 0 then
            derivedTokens variantPatterns s else [str "default"]) = _
    by_cases hX : derivedTokens variantPatterns s = []
    · rw [if_pos hX, hX]
      simp
    · rw [if_neg hX, if_pos (List.length_pos.mpr hX)]

/-- The sizes field of `parseClasses`, phrased through the pipeline. -/
theorem parseClasses_sizes_eq (s : Str) :
    (parseClasses s).sizes =
      if derivedTokens sizePatterns s = [] then [str "default"]
      else derivedTokens sizePatterns s := by
  by_cases hs : s = []
  · subst hs; rfl
  · unfold parseClasses
    rw [if_neg hs]
    show (if (derivedTokens sizePatterns s).length > 0 then
            derivedTokens sizePatterns s else [str "default"]) = _
    by_cases hX : derivedTokens sizePatterns s = []
    · rw [if_pos hX, hX]
      simp
    · rw [if_neg hX, if_pos (List.length_pos.mpr hX)]

/-- Membership in a sentinel-defaulted token list. -/
theorem mem_sentinelized (vocab : List Str) (s x : Str) :
    (x ∈ (if derivedTokens vocab s = [] then [str "default"]
          else derivedTokens vocab s)) ↔
      (x ∈ vocab ∧ ('-' :: x) ∈ wsTokens s) ∨
      (x = str "default" ∧ ¬∃ y, y ∈ vocab ∧ ('-' :: y) ∈ wsTokens s) := by
  by_cases hX : derivedTokens vocab s = []
  · have hno : ¬∃ y, y ∈ vocab ∧ ('-' :: y) ∈ wsTokens s := by
      rintro ⟨y, hy⟩
      have hm : y ∈ derivedTokens vocab s := (mem_derivedTokens vocab s y).mpr hy
      rw [hX] at hm
      simp at hm
    rw [if_pos hX]
    constructor
    · intro hx
      exact Or.inr ⟨List.mem_singleton.mp hx, hno⟩
    · rintro (h | ⟨hx, _⟩)
      · exact absurd ⟨x, h⟩ hno
      · simp [hx]
  · rw [if_neg hX, mem_derivedTokens]
    constructor
    · exact Or.inl
    · rintro (h | ⟨hx, hno⟩)
      · exact h
      · exfalso
        rcases List.exists_mem_of_ne_nil _ hX with ⟨z, hz⟩
        exact hno ⟨z, (mem_derivedTokens vocab s z).mp hz⟩

/-- C4: token derivation is a pure function of the class string, and the
returned variant (resp. size) list holds exactly the whitespace-separated
dash-marked tokens whose remainder is in the fixed variant (resp. size)
vocabulary — every other class token is ignored — except that an absent or
empty class string, or one yielding no recognized token, produces the
singleton default sentinel instead of an empty set. -/
theorem parseClasses_token_characterization (s x : Str) :
    (x ∈ (parseClasses s).variants ↔
      (x ∈ variantPatterns ∧ ('-' :: x) ∈ wsTokens s) ∨
      (x = str "default" ∧ ¬∃ y, y ∈ variantPatterns ∧ ('-' :: y) ∈ wsTokens s)) ∧
    (x ∈ (parseClasses s).sizes ↔
      (x ∈ sizePatterns ∧ ('-' :: x) ∈ wsTokens s) ∨
      (x = str "default" ∧ ¬∃ y, y ∈ sizePatterns ∧ ('-' :: y) ∈ wsTokens s)) := by
  constructor
  · rw [parseClasses_variants_eq]
    exact mem_sentinelized variantPatterns s x
  · rw [parseClasses_sizes_eq]
    exact mem_sentinelized sizePatterns s x

/-- C9: extraction is deterministic in its inputs — two runs of the
extractor against the same DOM snapshot and tracked tag list produce
identical report mappings (keys, counts, token sets, distributions and
instance samples); the embedding carries no state besides the snapshot and
the tag list, mirroring the source closure that reads only the live DOM
and its argument. -/
theorem extractEnhancedComponents_deterministic (doc : List Elt)
    (tracked : List Str) (r1 r2 : List (Str × EnhancedReport))
    (h1 : extractEnhancedComponents doc tracked = r1)
    (h2 : extractEnhancedComponents doc tracked = r2) : r1 = r2 :=
  h1.symm.trans h2

/-- Witness for C9: the two hypotheses hold of a concrete run — a document
with one styled button and one shadow-hosted widget — and the theorem then
equates the two runs. -/
theorem extractEnhancedComponents_deterministic_witness :
    extractEnhancedComponents
        [Elt.mk (str "now-button") [(str "class", str "-primary -md")] none [],
         Elt.mk (str "div") []
           (some [Elt.mk (str "now-button") [(str "icon", str "gear")] none []]) []]
        [str "now-button"] =
      extractEnhancedComponents
        [Elt.mk (str "now-button") [(str "class", str "-primary -md")] none [],
         Elt.mk (str "div") []
           (some [Elt.mk (str "now-button") [(str "icon", str "gear")] none []]) []]
        [str "now-button"] :=
  extractEnhancedComponents_deterministic _ _ _ _ rfl rfl

/-- C10 counterexample: on an element whose icon attribute is present with
an empty value, the Figma-comparison extractor computes `hasIcon = false`
(JS truthiness of the attribute value) while the enhanced extractor
computes `hasIcon = true` (attribute presence) — the claim that the two
implementations agree on such elements is false. -/
theorem hasIcon_disagree_on_empty_icon :
    (mkFigmaInstance emptyIconButton).hasIcon = false ∧
    (mkInstance emptyIconButton).hasIcon = true :=
  ⟨rfl, rfl⟩

/-- Relating the two attribute reads: `hasAttribute` is definedness of
`getAttribute`. -/
theorem hasAttr_eq_isSome (e : Elt) (name : Str) :
    hasAttr e name = (getAttr e name).isSome := by
  rw [hasAttr, getAttr]
  cases e.attrs.find? (fun p => p.1 = name) <;> rfl

/-- C10 amended: the two extractors agree on `hasIcon` for every element
except those carrying an icon attribute whose value is the empty string;
there `extractComponents` yields false and `extractEnhancedComponents`
yields true. -/
theorem hasIcon_agreement_characterization (e : Elt) :
    ((mkFigmaInstance e).hasIcon = (mkInstance e).hasIcon) ↔
      getAttr e (str "icon") ≠ some [] := by
  show (truthyOptStr (getAttr e (str "icon")) =
        (hasAttr e (str "icon") || (getAttr e (str "icon")).isSome)) ↔ _
  rw [hasAttr_eq_isSome]
  cases h : getAttr e (str "icon") with
  | none => simp [truthyOptStr]
  | some v =>
    by_cases hv : v = [] <;> simp [truthyOptStr, hv]

/-- C5 counterexample: a failing selector query inside the custom-pattern
scan is caught and swallowed — the query raises, yet `findCustomPatterns`
returns an ordinary (empty) findings object instead of propagating the
error, contradicting the claim that every error raised during element
search propagates to the caller. -/
theorem findCustomPatterns_swallows_query_error :
    querySelCount plainBodyDoc (.invalidSel (str "SyntaxError: bad selector")) =
      .error (str "SyntaxError: bad selector") ∧
    findCustomPatterns plainBodyDoc
        [(str "buttons", .invalidSel (str "SyntaxError: bad selector"))] = [] :=
  ⟨rfl, rfl⟩

/-- C5 amended: a null driver-supplied root makes the traversal itself fail
fast with a descriptive error before producing any partial result, and the
audit path never catches it; however the custom-pattern scanner catches a
failing per-selector query and silently skips that pattern, leaving the
remaining patterns unaffected, so errors raised during custom-pattern
element search do not propagate. -/
theorem traversal_failure_policy :
    (∀ tag : Str, searchInShadowDOMFromRoot none tag = .error nullRootMsg) ∧
    (∀ (doc : List Elt) (p1 p2 : List (Str × Sel)) (n : Str) (s : Sel) (m : Str),
      querySelCount doc s = .error m →
      findCustomPatterns doc (p1 ++ (n, s) :: p2) =
        findCustomPatterns doc (p1 ++ p2)) := by
  constructor
  · intro tag
    rfl
  · intro doc p1 p2 n s m h
    induction p1 with
    | nil => simp [findCustomPatterns, h]
    | cons q qs ih =>
      cases q with
      | mk qn qsel =>
        simp only [List.cons_append, findCustomPatterns]
        cases hq : querySelCount doc qsel with
        | ok c =>
          by_cases hc : c > 0 <;> simp [hc, ih]
        | error msg => exact ih

/-- Witness for C5: the amended skip property applied at a concrete failing
selector. -/
theorem traversal_failure_policy_witness :
    findCustomPatterns plainBodyDoc
        ([] ++ (str "buttons", Sel.invalidSel (str "bad")) :: []) =
      findCustomPatterns plainBodyDoc ([] ++ []) :=
  traversal_failure_policy.2 plainBodyDoc [] [] (str "buttons")
    (Sel.invalidSel (str "bad")) (str "bad") rfl

/-- Head step of the validator when the mapping entry is absent or fails
the usability guard: the tag is skipped. -/
theorem validate_cons_skip (figma : Str → Option RefSpec) (doc : List Elt)
    (name : Str) (rest : List Str)
    (h : specUsable (figma name) = false) :
    validateComponentSpecs figma doc (name :: rest) =
      validateComponentSpecs figma doc rest := by
  cases hf : figma name with
  | none => simp [validateComponentSpecs, hf]
  | some sp =>
    have ht : truthyOptStr sp.figmaComponentNodeId = false := by
      rw [hf] at h
      simpa [specUsable] using h
    simp [validateComponentSpecs, hf, ht]

/-- Head step of the validator when the mapping entry is usable. -/
theorem validate_cons_usable (figma : Str → Option RefSpec) (doc : List Elt)
    (name : Str) (rest : List Str) (sp : RefSpec)
    (hf : figma name = some sp)
    (ht : truthyOptStr sp.figmaComponentNodeId = true) :
    validateComponentSpecs figma doc (name :: rest) =
      if (validateTag sp (searchInShadowDOM doc name)).length > 0 then
        (name, validateTag sp (searchInShadowDOM doc name)) ::
          validateComponentSpecs figma doc rest
      else validateComponentSpecs figma doc rest := by
  simp [validateComponentSpecs, hf, ht]

/-- Only tags with a usable mapping entry ever reach the validator's
output. -/
theorem specUsable_of_mem_validate (figma : Str → Option RefSpec)
    (doc : List Elt) :
    ∀ (names : List Str) (n : Str) (v : List Issue),
      (n, v) ∈ validateComponentSpecs figma doc names →
        specUsable (figma n) = true := by
  intro names
  induction names with
  | nil => intro n v h; simp [validateComponentSpecs] at h
  | cons name rest ih =>
    intro n v h
    by_cases hus : specUsable (figma name) = true
    · rcases hfs : figma name with _ | sp
      · rw [hfs] at hus
        simp [specUsable] at hus
      · have ht : truthyOptStr sp.figmaComponentNodeId = true := by
          rw [hfs] at hus
          simpa [specUsable] using hus
        rw [validate_cons_usable figma doc name rest sp hfs ht] at h
        by_cases hi :
            (validateTag sp (searchInShadowDOM doc name)).length > 0
        · rw [if_pos hi] at h
          rcases List.mem_cons.mp h with heq | hmem
          · have hn : n = name := congrArg Prod.fst heq
            subst hn
            exact hus
          · exact ih n v hmem
        · rw [if_neg hi] at h
          exact ih n v h
    · rw [validate_cons_skip figma doc name rest
        (Bool.eq_false_iff.mpr hus)] at h
      exact ih n v h

/-- C6: a tag name present in the audited reports but absent from the
reference mapping — or whose entry fails the code's usability guard (a
falsy node id) — is skipped silently: removing it from the tag list leaves
the validator output unchanged, and no output entry is keyed by it. -/
theorem validateComponentSpecs_skips_missing_spec
    (figma : Str → Option RefSpec) (doc : List Elt)
    (names1 names2 : List Str) (name : Str)
    (h : specUsable (figma name) = false) :
    validateComponentSpecs figma doc (names1 ++ name :: names2) =
      validateComponentSpecs figma doc (names1 ++ names2) ∧
    ∀ v, (name, v) ∉ validateComponentSpecs figma doc (names1 ++ name :: names2) := by
  constructor
  · induction names1 with
    | nil =>
      simpa using validate_cons_skip figma doc name names2 h
    | cons q qs ih =>
      rw [List.cons_append, List.cons_append]
      by_cases hus : specUsable (figma q) = true
      · rcases hfs : figma q with _ | sp
        · rw [hfs] at hus
          simp [specUsable] at hus
        · have ht : truthyOptStr sp.figmaComponentNodeId = true := by
            rw [hfs] at hus
            simpa [specUsable] using hus
          rw [validate_cons_usable figma doc q _ sp hfs ht,
            validate_cons_usable figma doc q _ sp hfs ht, ih]
      · rw [validate_cons_skip figma doc q _ (Bool.eq_false_iff.mpr hus),
          validate_cons_skip figma doc q _ (Bool.eq_false_iff.mpr hus), ih]
  · intro v hv
    have hu := specUsable_of_mem_validate figma doc _ name v hv
    rw [h] at hu
    exact absurd hu (by decide)

/-- Witness for C6: an unmapped tag in the audited list changes nothing. -/
theorem validateComponentSpecs_skips_missing_spec_witness :
    validateComponentSpecs emptyFigmaMapping plainBodyDoc
        ([] ++ str "x-unmapped" :: []) =
      validateComponentSpecs emptyFigmaMapping plainBodyDoc ([] ++ []) :=
  (validateComponentSpecs_skips_missing_spec emptyFigmaMapping plainBodyDoc
    [] [] (str "x-unmapped") rfl).1

/-- Issues of the per-element loop, located by element index. -/
theorem mem_validateTagAux (spec : RefSpec) (x : Issue) :
    ∀ (els : List Elt) (i : Nat),
      x ∈ validateTagAux spec i els ↔
        ∃ k, ∃ hk : k < els.length,
          x ∈ elementIssues spec (i + k) (els.get ⟨k, hk⟩) := by
  intro els
  induction els with
  | nil =>
    intro i
    simp [validateTagAux]
  | cons e es ih =>
    intro i
    simp only [validateTagAux]
    constructor
    · intro h
      rcases List.mem_append.mp h with h0 | h1
      · exact ⟨0, Nat.succ_pos _, by simpa using h0⟩
      · rcases (ih (i + 1)).mp h1 with ⟨k, hk, hx⟩
        refine ⟨k + 1, Nat.succ_lt_succ hk, ?_⟩
        have harith : i + (k + 1) = (i + 1) + k := by omega
        rw [harith]
        simpa using hx
    · rintro ⟨k, hk, hx⟩
      cases k with
      | zero =>
        apply List.mem_append.mpr
        left
        simpa using hx
      | succ k =>
        apply List.mem_append.mpr
        right
        apply (ih (i + 1)).mpr
        refine ⟨k, Nat.lt_of_succ_lt_succ hk, ?_⟩
        have harith : (i + 1) + k = i + (k + 1) := by omega
        rw [harith]
        simpa using hx

/-- An attribute issue is emitted for an element exactly when the spec
declares the constraint, the element carries the attribute, and the value
is outside the allowed list. -/
theorem invalidAttr_mem_elementIssues (spec : RefSpec) (i : Nat) (e : Elt)
    (j : Nat) (name v : Str) (al : List Str) :
    Issue.invalidAttr j name v al ∈ elementIssues spec i e ↔
      j = i ∧ (name, some al) ∈ constraintsOf spec ∧
        getAttr e name = some v ∧ v ∉ al := by
  simp only [elementIssues]
  constructor
  · intro h
    rcases List.mem_append.mp h with h12 | h3
    · exfalso
      rcases List.mem_append.mp h12 with h1 | h2
      · revert h1; split <;> simp
      · revert h2; split <;> simp
    · rcases List.mem_flatMap.mp h3 with ⟨c, hc, hcheck⟩
      rcases c with ⟨cn, callow⟩
      cases callow with
      | none => simp [checkAttr] at hcheck
      | some al2 =>
        cases hv : getAttr e cn with
        | none => simp [checkAttr, hv] at hcheck
        | some v2 =>
          by_cases hin : v2 ∈ al2
          · simp [checkAttr, hv, hin] at hcheck
          · simp [checkAttr, hv, hin] at hcheck
            obtain ⟨hj, hn, hv2, hal⟩ := hcheck
            subst hj; subst hn; subst hv2; subst hal
            exact ⟨rfl, hc, hv, hin⟩
  · rintro ⟨rfl, hc, hv, hnal⟩
    apply List.mem_append.mpr
    right
    apply List.mem_flatMap.mpr
    refine ⟨(name, some al), hc, ?_⟩
    simp [checkAttr, hv, hnal]

/-- C7: the comparator emits an attribute violation for an element and a
named constraint of the matching reference spec exactly when the element
actually carries that attribute and its value lies outside the constraint's
allowed list; in particular an element lacking the attribute yields no
violation for that constraint. -/
theorem validateComponentSpecs_attr_violation_iff (spec : RefSpec)
    (els : List Elt) (j : Nat) (name v : Str) (al : List Str) :
    Issue.invalidAttr j name v al ∈ validateTag spec els ↔
      ∃ k, ∃ hk : k < els.length,
        j = 1 + k ∧ (name, some al) ∈ constraintsOf spec ∧
        getAttr (els.get ⟨k, hk⟩) name = some v ∧ v ∉ al := by
  rw [validateTag, mem_validateTagAux]
  constructor
  · rintro ⟨k, hk, hx⟩
    rcases (invalidAttr_mem_elementIssues spec (1 + k) (els.get ⟨k, hk⟩)
        j name v al).mp hx with ⟨hj, hc, hv, hn⟩
    exact ⟨k, hk, hj, hc, hv, hn⟩
  · rintro ⟨k, hk, hj, hc, hv, hn⟩
    exact ⟨k, hk, (invalidAttr_mem_elementIssues spec (1 + k) (els.get ⟨k, hk⟩)
      j name v al).mpr ⟨hj, hc, hv, hn⟩⟩

/-- Lists of at most one element are vacuously pairwise-related. -/
theorem pairwise_of_len_le_one {α : Type} {R : α → α → Prop} (l : List α)
    (h : l.length ≤ 1) : l.Pairwise R := by
  match l with
  | [] => exact .nil
  | [x] => simp
  | x :: y :: _ => simp at h

/-- A single constraint check emits at most one issue. -/
theorem checkAttr_len (i : Nat) (n : Str) (al : Option (List Str))
    (v : Option Str) : (checkAttr i n al v).length ≤ 1 := by
  unfold checkAttr
  split
  · simp
  · split
    · split <;> simp
    · simp

/-- Every issue of a constraint check carries the element index and the
rank slot of its constraint name. -/
theorem mem_checkAttr_rank (i : Nat) (n : Str) (al : Option (List Str))
    (v : Option Str) :
    ∀ x ∈ checkAttr i n al v,
      issueElem x = i ∧ issueSub x = 2 + attrSlot n := by
  intro x hx
  unfold checkAttr at hx
  rcases al with _ | al2
  · simp at hx
  · rcases v with _ | v2
    · simp at hx
    · by_cases hin : v2 ∈ al2
      · simp [hin] at hx
      · simp [hin] at hx
        subst hx
        exact ⟨rfl, rfl⟩

/-- Issues of constraint checks over a name list with strictly increasing
rank slots come out in strictly increasing rank. -/
theorem flatMap_checkAttr_pairwise (i : Nat) (e : Elt) :
    ∀ cs : List (Str × Option (List Str)),
      cs.Pairwise (fun a b => attrSlot a.1 < attrSlot b.1) →
      (cs.flatMap (fun c => checkAttr i c.1 c.2 (getAttr e c.1))).Pairwise
        (fun a b => issueRank a < issueRank b) := by
  intro cs h
  induction cs with
  | nil => simp
  | cons c cs ih =>
    rw [List.flatMap_cons]
    rcases List.pairwise_cons.mp h with ⟨hhead, htail⟩
    apply List.pairwise_append.mpr
    refine ⟨pairwise_of_len_le_one _ (checkAttr_len i c.1 c.2 (getAttr e c.1)),
      ih htail, ?_⟩
    intro a ha b hb
    rcases mem_checkAttr_rank i c.1 c.2 (getAttr e c.1) a ha with ⟨hae, has⟩
    rcases List.mem_flatMap.mp hb with ⟨c2, hc2, hb2⟩
    rcases mem_checkAttr_rank i c2.1 c2.2 (getAttr e c2.1) b hb2 with ⟨hbe, hbs⟩
    have hlt := hhead c2 hc2
    rw [issueRank, issueRank, hae, has, hbe, hbs]
    omega

/-- Bounds for issues produced by the eight declared constraints: the rank
slot lies between 2 and 9. -/
theorem mem_constraints_flatMap_rank (spec : RefSpec) (i : Nat) (e : Elt) :
    ∀ x ∈ (constraintsOf spec).flatMap
        (fun c => checkAttr i c.1 c.2 (getAttr e c.1)),
      issueElem x = i ∧ 2 ≤ issueSub x ∧ issueSub x ≤ 9 := by
  intro x hx
  rcases List.mem_flatMap.mp hx with ⟨c, hc, hcheck⟩
  rcases mem_checkAttr_rank i c.1 c.2 (getAttr e c.1) x hcheck with ⟨he, hs⟩
  have hnm : c.1 ∈ constraintNames := by
    have hm : c.1 ∈ (constraintsOf spec).map Prod.fst :=
      List.mem_map_of_mem Prod.fst hc
    simpa [constraintsOf, constraintNames] using hm
  have hslot : ∀ nm ∈ constraintNames, attrSlot nm ≤ 7 := by decide
  have hidx := hslot c.1 hnm
  refine ⟨he, ?_, ?_⟩ <;> omega

/-- Membership in a guarded singleton. -/
theorem mem_ite_singleton {α : Type} {c : Prop} [Decidable c] {a x : α}
    (h : x ∈ (if c then [a] else [])) : x = a := by
  split at h
  · simpa using h
  · simp at h

/-- Every issue of one element's check carries that element's index and a
rank slot of at most 9. -/
theorem mem_elementIssues_rank (spec : RefSpec) (i : Nat) (e : Elt) :
    ∀ x ∈ elementIssues spec i e, issueElem x = i ∧ issueSub x ≤ 9 := by
  intro x hx
  simp only [elementIssues] at hx
  rcases List.mem_append.mp hx with h12 | h3
  · rcases List.mem_append.mp h12 with h1 | h2
    · rw [mem_ite_singleton h1]
      exact ⟨rfl, by rw [issueSub]; omega⟩
    · rw [mem_ite_singleton h2]
      exact ⟨rfl, by rw [issueSub]; omega⟩
  · rcases mem_constraints_flatMap_rank spec i e x h3 with ⟨he, _, hs⟩
    exact ⟨he, hs⟩

/-- The issues of one element are emitted in strictly increasing rank:
the variant issue first, then the size issue, then the attribute issues in
declared constraint order. -/
theorem elementIssues_pairwise (spec : RefSpec) (i : Nat) (e : Elt) :
    (elementIssues spec i e).Pairwise (fun a b => issueRank a < issueRank b) := by
  simp only [elementIssues]
  have hmap : (constraintsOf spec).map Prod.fst = constraintNames := rfl
  have base : constraintNames.Pairwise (fun x y => attrSlot x < attrSlot y) := by
    decide
  have mono : (constraintsOf spec).Pairwise
      (fun a b => attrSlot a.1 < attrSlot b.1) :=
    (@List.pairwise_map (Str × Option (List Str)) Str Prod.fst
      (fun x y => attrSlot x < attrSlot y) (constraintsOf spec)).mp
      (by rw [hmap]; exact base)
  apply List.pairwise_append.mpr
  refine ⟨?_, flatMap_checkAttr_pairwise i e (constraintsOf spec) mono, ?_⟩
  · apply List.pairwise_append.mpr
    refine ⟨pairwise_of_len_le_one _ (by split <;> simp),
      pairwise_of_len_le_one _ (by split <;> simp), ?_⟩
    intro a ha b hb
    rw [mem_ite_singleton ha, mem_ite_singleton hb]
    rw [issueRank, issueRank]
    rw [show issueElem (Issue.invalidVariants i
      ((getClassVariants e).variants.filter (fun v => v ∉ spec.variants))
      spec.variants) = i from rfl]
    rw [show issueElem (Issue.invalidSizes i
      ((getClassVariants e).sizes.filter (fun s => s ∉ spec.sizes))
      spec.sizes) = i from rfl]
    rw [show issueSub (Issue.invalidVariants i
      ((getClassVariants e).variants.filter (fun v => v ∉ spec.variants))
      spec.variants) = 0 from rfl]
    rw [show issueSub (Issue.invalidSizes i
      ((getClassVariants e).sizes.filter (fun s => s ∉ spec.sizes))
      spec.sizes) = 1 from rfl]
    omega
  · intro a ha b hb
    rcases mem_constraints_flatMap_rank spec i e b hb with ⟨hbe, hbs, _⟩
    have has : issueElem a = i ∧ issueSub a ≤ 1 := by
      rcases List.mem_append.mp ha with h1 | h2
      · rw [mem_ite_singleton h1]
        exact ⟨rfl, by rw [issueSub]; omega⟩
      · rw [mem_ite_singleton h2]
        exact ⟨rfl, by rw [issueSub]⟩
    rcases has with ⟨hae, hasub⟩
    rw [issueRank, issueRank, hae, hbe]
    omega

/-- Every issue of the element loop from start index `i` has element index
at least `i` and rank slot at most 9. -/
theorem mem_validateTagAux_rank (spec : RefSpec) :
    ∀ (els : List Elt) (i : Nat) (x : Issue),
      x ∈ validateTagAux spec i els → i ≤ issueElem x ∧ issueSub x ≤ 9 := by
  intro els
  induction els with
  | nil => intro i x h; simp [validateTagAux] at h
  | cons e es ih =>
    intro i x h
    rcases List.mem_append.mp (by simpa [validateTagAux] using h) with h0 | h1
    · rcases mem_elementIssues_rank spec i e x h0 with ⟨he, hs⟩
      exact ⟨le_of_eq he.symm, hs⟩
    · rcases ih (i + 1) x h1 with ⟨he, hs⟩
      exact ⟨le_trans (Nat.le_succ i) he, hs⟩

/-- The element loop emits issues in strictly increasing rank. -/
theorem validateTagAux_pairwise (spec : RefSpec) :
    ∀ (els : List Elt) (i : Nat),
      (validateTagAux spec i els).Pairwise (fun a b => issueRank a < issueRank b) := by
  intro els
  induction els with
  | nil => intro i; simp [validateTagAux]
  | cons e es ih =>
    intro i
    simp only [validateTagAux]
    apply List.pairwise_append.mpr
    refine ⟨elementIssues_pairwise spec i e, ih (i + 1), ?_⟩
    intro a ha b hb
    rcases mem_elementIssues_rank spec i e a ha with ⟨hae, has⟩
    rcases mem_validateTagAux_rank spec es (i + 1) b hb with ⟨hbe, _⟩
    rw [issueRank, issueRank, hae]
    omega

/-- C8: the comparator's per-tag violation list is ordered — violations of
earlier element instances precede those of later ones, and within one
element the variant violation precedes the size violation, which precedes
the attribute-constraint violations, the latter in the fixed declared
order; formally, the emitted issues are strictly increasing under the rank
that encodes exactly this order. -/
theorem validateTag_ordered (spec : RefSpec) (els : List Elt) :
    (validateTag spec els).Pairwise (fun a b => issueRank a < issueRank b) :=
  validateTagAux_pairwise spec els 1
